import Mathlib

/-
  Verification development for the qabuild example-partitioning engine
  (src/qabuild/src/qabuild.rs).

  Embedding conventions:
  - Rust strings are modelled as lists of characters; offsets and lengths
    count characters.  The source slices and measures byte offsets of UTF-8
    text; on the character-list model every cut position is a valid
    boundary, and the only slice failure mode left is an out-of-range cut,
    which is modelled explicitly with Option.
  - HashMap<String, Example> is modelled as an association list.  Insertion
    is modelled by consing at the front and lookup by first match, which
    gives the overwrite-on-duplicate-key semantics of HashMap::insert.
    Iteration order of a HashMap is unspecified; the association list fixes
    one order, and theorems quantify over the list, hence over all orders.
  - The per-call thread_rng sample stream of get_append_examples and
    get_twoway_examples is modelled by a function rng : Nat -> Nat giving
    the value of the n-th draw; gen_range(0..69808) constrains draws to be
    below 69808, which appears as a hypothesis where relevant.
  - File and process concerns (argument parsing, buffered IO, panics of the
    JSON deserializer on empty input) are outside the embedded core; the
    loader and writer are modelled on an explicit JSON value type.
-/

set_option maxRecDepth 8000
set_option synthInstance.maxHeartbeats 1000000

abbrev Str := List Char

/-- Answers record of qabuild.rs: parallel arrays of answer texts and
starting offsets (i64 modelled as Int). -/
structure Answers where
  text : List Str
  answer_start : List Int
deriving DecidableEq

/-- Example record of qabuild.rs: title, context, question and answers.
The Rc sharing of title and context is value-irrelevant and dropped. -/
structure Example where
  title : Str
  context : Str
  question : Str
  answers : Answers
deriving DecidableEq

/-- A corpus or derived split: association list from id to Example,
modelling HashMap<String, Example>. -/
abbrev Corpus := List (Str × Example)

/-- First-match association-list lookup, modelling HashMap lookup,
contains_key and the index operator. -/
def mapFind {β : Type} (k : Str) : List (Str × β) → Option β
  | [] => none
  | (k2, v) :: rest => if k = k2 then some v else mapFind k rest

/-- Model of k.contains(HYPHEN) on a Rust string id. -/
def hasHyphen (k : Str) : Bool := decide ('-' ∈ k)

/-- Model of k.split(HYPHEN).next().unwrap(): the characters of the id
before its first hyphen. -/
def baseId (k : Str) : Str := k.takeWhile (fun c => c != '-')

/-- The id suffix used by the append and twoway rules to look up the
adversarial variant of a base id. -/
def highConf : Str := "-high-conf".data

/-- Model of str::trim: remove leading and trailing whitespace characters. -/
def trimList (s : Str) : Str :=
  ((s.dropWhile Char.isWhitespace).reverse.dropWhile Char.isWhitespace).reverse

/-- The last_sentence local of the prepend branch of get_twoway_examples:
the slice of the variant context v after the clean context of v2, trimmed,
with one trailing space appended. -/
def lastSentence (v2 v : Example) : Str :=
  trimList (v.context.drop v2.context.length) ++ [' ']

/-- The prepend transformation of the third bucket of get_twoway_examples
(lines 228 to 246 of qabuild.rs).  The source slices
v.context[v2.context.len()..], which panics when the cut is out of range;
the out-of-range case is modelled as none. -/
def prependExample (v2 v : Example) : Option Example :=
  if v2.context.length ≤ v.context.length then
    some
      { title := v2.title
        context := lastSentence v2 v ++ v2.context
        question := v2.question
        answers :=
          { text := v2.answers.text
            answer_start := v2.answers.answer_start.map
              (fun s => s + ((lastSentence v2 v).length : Int)) } }
  else none

/-- Loop body of get_clean_examples, processing the remaining entries with
the accumulated output map. -/
def cleanGo : Corpus → Corpus → Corpus
  | [], acc => acc
  | (k, v) :: rest, acc =>
    if hasHyphen k = false then cleanGo rest ((k, v) :: acc)
    else cleanGo rest acc

/-- Model of get_clean_examples of qabuild.rs. -/
def get_clean_examples (raw : Corpus) : Corpus := cleanGo raw []

/-- Loop body of get_append_examples: raw is the corpus used for lookups,
the list argument is the remaining iteration entries, the Nat argument
counts the samples drawn so far, and the last argument accumulates the
output map. -/
def appendGo (raw : Corpus) (rng : Nat → Nat) : Corpus → Nat → Corpus → Corpus
  | [], _, acc => acc
  | (k, v) :: rest, i, acc =>
    if hasHyphen k = false then
      match mapFind (k ++ highConf) raw with
      | none => appendGo raw rng rest i ((k, v) :: acc)
      | some _ => appendGo raw rng rest i acc
    else
      match mapFind (baseId k) raw with
      | some v2 =>
        if rng i < 26009 then appendGo raw rng rest (i + 1) ((baseId k, v2) :: acc)
        else appendGo raw rng rest (i + 1) ((baseId k, v) :: acc)
      | none => appendGo raw rng rest i acc

/-- Model of get_append_examples of qabuild.rs. -/
def get_append_examples (raw : Corpus) (rng : Nat → Nat) : Corpus :=
  appendGo raw rng raw 0 []

/-- Loop body of get_twoway_examples.  The prepend branch can panic in the
source (out-of-range slice), so the result is an Option; none models the
panic. -/
def twowayGo (raw : Corpus) (rng : Nat → Nat) : Corpus → Nat → Corpus → Option Corpus
  | [], _, acc => some acc
  | (k, v) :: rest, i, acc =>
    if hasHyphen k = false then
      match mapFind (k ++ highConf) raw with
      | none => twowayGo raw rng rest i ((k, v) :: acc)
      | some _ => twowayGo raw rng rest i acc
    else
      match mapFind (baseId k) raw with
      | some v2 =>
        if rng i < 11339 then twowayGo raw rng rest (i + 1) ((baseId k, v2) :: acc)
        else if rng i < 40469 then twowayGo raw rng rest (i + 1) ((baseId k, v) :: acc)
        else
          match prependExample v2 v with
          | some e => twowayGo raw rng rest (i + 1) ((baseId k, e) :: acc)
          | none => none
      | none => twowayGo raw rng rest i acc

/-- Model of get_twoway_examples of qabuild.rs. -/
def get_twoway_examples (raw : Corpus) (rng : Nat → Nat) : Option Corpus :=
  twowayGo raw rng raw 0 []

/-- Loop body of get_challenge_examples. -/
def challengeGo : Corpus → Corpus → Corpus
  | [], acc => acc
  | (k, v) :: rest, acc =>
    if hasHyphen k = false then challengeGo rest acc
    else challengeGo rest ((k, v) :: acc)

/-- Model of get_challenge_examples of qabuild.rs. -/
def get_challenge_examples (raw : Corpus) : Corpus := challengeGo raw []

/-- Whether processing the entry with id k can insert an output entry under
key b: a hyphen-free id inserts under itself when its high-conf variant is
absent, a hyphenated id inserts under its base id when the base is present.
Used to state that the remainder of an iteration leaves a key alone. -/
def touchesKey (raw : Corpus) (k b : Str) : Bool :=
  if hasHyphen k = false then
    decide (k = b) && (mapFind (k ++ highConf) raw).isNone
  else
    decide (baseId k = b) && (mapFind (baseId k) raw).isSome

/-- The corpus invariant of the spec, decidably: whenever a hyphenated
variant id resolves to a base example, the base context is an initial
segment of the variant context (the variant appends an adversarial
sentence after the original context). -/
def wellFormed (raw : Corpus) : Bool :=
  raw.all fun p =>
    !(hasHyphen p.1) ||
      (match mapFind (baseId p.1) raw with
       | none => true
       | some v2 => decide (p.2.context.take v2.context.length = v2.context))

/-- The answers invariant of section 3 of the spec: the two answer arrays
are parallel, and each answer text equals the substring of the context at
its starting offset. -/
def answersOk (ex : Example) : Prop :=
  ex.answers.text.length = ex.answers.answer_start.length ∧
  ∀ (i : Nat) (ht : i < ex.answers.text.length)
    (hs : i < ex.answers.answer_start.length),
    0 ≤ ex.answers.answer_start.get ⟨i, hs⟩ ∧
    (ex.context.drop (ex.answers.answer_start.get ⟨i, hs⟩).toNat).take
        (ex.answers.text.get ⟨i, ht⟩).length
      = ex.answers.text.get ⟨i, ht⟩

/- Concrete fixtures: the two-example corpus of section 8 of the spec. -/

def titleT : Str := "T".data
def q1Str : Str := "Q1".data
def q1hcStr : Str := "Q1-high-conf".data
def q1fooStr : Str := "Q1-foo".data
def q2Str : Str := "Q2".data
def q2fooStr : Str := "Q2-foo".data
def parisCtx : Str := "Paris is the capital. It is large.".data
def parisVarCtx : Str :=
  "Paris is the capital. It is large. Rome is also a capital.".data
def romeParisCtx : Str :=
  "Rome is also a capital. Paris is the capital. It is large.".data
def romeTail : Str := " Rome is also a capital.".data
def questionStr : Str := "What is the capital?".data
def parisAns : Str := "Paris".data

def parisClean : Example :=
  { title := titleT, context := parisCtx, question := questionStr
    answers := { text := [parisAns], answer_start := [0] } }

def parisVariant : Example :=
  { title := titleT, context := parisVarCtx, question := questionStr
    answers := { text := [parisAns], answer_start := [0] } }

/-- The example the prepend branch produces from the section 8 corpus. -/
def parisPrepended : Example :=
  { title := titleT, context := romeParisCtx, question := questionStr
    answers := { text := [parisAns], answer_start := [24] } }

def parisCorpus : Corpus := [(q1Str, parisClean), (q1hcStr, parisVariant)]

/-- Corpus where the only variant of Q1 carries a suffix other than
high-conf, in iteration order base first. -/
def fooCorpusAB : Corpus := [(q1Str, parisClean), (q1fooStr, parisVariant)]

/-- Same corpus as fooCorpusAB in the opposite iteration order. -/
def fooCorpusBA : Corpus := [(q1fooStr, parisVariant), (q1Str, parisClean)]

/-- Single-entry corpus with a base id and no variant at all. -/
def soloCorpus : Corpus := [(q2Str, parisClean)]

/-- Sample stream landing every draw in the third twoway bucket. -/
def rng50k : Nat → Nat := fun _ => 50000

/-- Sample stream landing every draw in the append bucket of the append
rule and the middle bucket of the twoway rule. -/
def rng30k : Nat → Nat := fun _ => 30000

/-- Sample stream landing every draw in the first bucket. -/
def rng5k : Nat → Nat := fun _ => 5000

/- Model of the JSON surface of read_raw_examples and
write_training_examples.  Only the value structure matters for the claims;
file handling and pretty printing are plumbing. -/

/-- JSON values as produced by serde_json: the Value variants the program
touches (strings, integer numbers, arrays, objects, and Null as returned
by indexing a missing key). -/
inductive Json where
  | null : Json
  | str : Str → Json
  | num : Int → Json
  | arr : List Json → Json
  | obj : List (Str × Json) → Json

/-- Model of Value indexing with a string key: field of an object, Null
for a missing key or a non-object. -/
def jIndex (j : Json) (key : Str) : Json :=
  match j with
  | Json.obj fields =>
    match mapFind key fields with
    | some v => v
    | none => Json.null
  | _ => Json.null

/-- Model of Value::as_array. -/
def asArray : Json → Option (List Json)
  | Json.arr xs => some xs
  | _ => none

/-- Model of Value::as_str. -/
def asStr : Json → Option Str
  | Json.str s => some s
  | _ => none

/-- Model of Value::as_i64. -/
def asInt : Json → Option Int
  | Json.num n => some n
  | _ => none

def dataKey : Str := "data".data
def titleKey : Str := "title".data
def contextKey : Str := "context".data
def questionKey : Str := "question".data
def idKey : Str := "id".data
def answersKey : Str := "answers".data
def textKey : Str := "text".data
def answerStartKey : Str := "answer_start".data
def qasKey : Str := "qas".data
def paragraphsKey : Str := "paragraphs".data

/-- Inner loop of read_raw_examples over the answers array of one qa:
collects answer_start and text in order; none models an unwrap panic. -/
def loadAnswers : List Json → Option (List Int × List Str)
  | [] => some ([], [])
  | a :: rest =>
    match asInt (jIndex a answerStartKey) with
    | none => none
    | some s =>
      match asStr (jIndex a textKey) with
      | none => none
      | some t =>
        match loadAnswers rest with
        | none => none
        | some (ss, ts) => some (s :: ss, t :: ts)

/-- Loop of read_raw_examples over the qas array of one paragraph,
inserting one Example per qa into the accumulated corpus. -/
def loadQas (title context : Str) : List Json → Corpus → Option Corpus
  | [], acc => some acc
  | qa :: rest, acc =>
    match asStr (jIndex qa questionKey) with
    | none => none
    | some question =>
      match asStr (jIndex qa idKey) with
      | none => none
      | some id =>
        match asArray (jIndex qa answersKey) with
        | none => none
        | some answers =>
          match loadAnswers answers with
          | none => none
          | some (ss, ts) =>
            loadQas title context rest
              ((id, { title := title, context := context, question := question
                      answers := { text := ts, answer_start := ss } }) :: acc)

/-- Loop of read_raw_examples over the paragraphs of one passage group. -/
def loadParagraphs (title : Str) : List Json → Corpus → Option Corpus
  | [], acc => some acc
  | p :: rest, acc =>
    match asStr (jIndex p contextKey) with
    | none => none
    | some context =>
      match asArray (jIndex p qasKey) with
      | none => none
      | some qas =>
        match loadQas title context qas acc with
        | none => none
        | some acc2 => loadParagraphs title rest acc2

/-- Loop of read_raw_examples over the passage groups of the data array. -/
def loadGroups : List Json → Corpus → Option Corpus
  | [], acc => some acc
  | g :: rest, acc =>
    match asStr (jIndex g titleKey) with
    | none => none
    | some title =>
      match asArray (jIndex g paragraphsKey) with
      | none => none
      | some paragraphs =>
        match loadParagraphs title paragraphs acc with
        | none => none
        | some acc2 => loadGroups rest acc2

/-- Model of read_raw_examples of qabuild.rs on an already parsed JSON
value: requires the data field to be an array of passage groups, and
none models the unwrap panics on missing or mistyped fields. -/
def read_raw_examples (j : Json) : Option Corpus :=
  match asArray (jIndex j dataKey) with
  | none => none
  | some data => loadGroups data []

/-- Output record of qabuild.rs: five parallel arrays. -/
structure Output where
  title : List Str
  context : List Str
  question : List Str
  id : List Str
  answers : List Answers
deriving DecidableEq

/-- The flattening loop of write_training_examples: push the fields of
each entry onto the five parallel arrays in iteration order. -/
def flattenExamples : Corpus → Output
  | [] => { title := [], context := [], question := [], id := [], answers := [] }
  | (k, v) :: rest =>
    { title := v.title :: (flattenExamples rest).title
      context := v.context :: (flattenExamples rest).context
      question := v.question :: (flattenExamples rest).question
      id := k :: (flattenExamples rest).id
      answers := v.answers :: (flattenExamples rest).answers }

/-- Serialization of one Answers record, fields in declaration order. -/
def answersJson (a : Answers) : Json :=
  Json.obj [(textKey, Json.arr (a.text.map Json.str)),
            (answerStartKey, Json.arr (a.answer_start.map Json.num))]

/-- Serialization of the Output record as a JSON object of five parallel
arrays. -/
def outputJson (o : Output) : Json :=
  Json.obj [(titleKey, Json.arr (o.title.map Json.str)),
            (contextKey, Json.arr (o.context.map Json.str)),
            (questionKey, Json.arr (o.question.map Json.str)),
            (idKey, Json.arr (o.id.map Json.str)),
            (answersKey, Json.arr (o.answers.map answersJson))]

/-- Model of write_training_examples of qabuild.rs up to the produced JSON
value: the derived split flattened to parallel arrays and wrapped in an
object under the data key. -/
def write_training_examples (examples : Corpus) : Json :=
  Json.obj [(dataKey, outputJson (flattenExamples examples))]

/-- Modelled from the spec: reconstruction of an id to Example mapping
from the five parallel arrays of the Writer schema, used to state in what
sense the written split remains recoverable.  This inverse direction is
not part of the source program. -/
def unflattenLists :
    List Str → List Str → List Str → List Str → List Answers → Corpus
  | t :: ts, c :: cs, q :: qs, i :: ids, a :: ans =>
    (i, { title := t, context := c, question := q, answers := a })
      :: unflattenLists ts cs qs ids ans
  | _, _, _, _, _ => []

/-- Modelled from the spec: reconstruction of a split from an Output
record. -/
def unflattenOutput (o : Output) : Corpus :=
  unflattenLists o.title o.context o.question o.id o.answers

/- Basic association-list lemmas. -/

theorem mapFind_nil {β : Type} (k : Str) : mapFind (β := β) k [] = none := rfl

theorem mapFind_cons {β : Type} (k k2 : Str) (v : β) (rest : List (Str × β)) :
    mapFind k ((k2, v) :: rest) = if k = k2 then some v else mapFind k rest := rfl

theorem mapFind_some_mem {β : Type} {k : Str} {l : List (Str × β)} {v : β}
    (h : mapFind k l = some v) : (k, v) ∈ l := by
  induction l with
  | nil => simp [mapFind] at h
  | cons p rest ih =>
    obtain ⟨k2, v2⟩ := p
    rw [mapFind_cons] at h
    by_cases hk : k = k2
    · rw [if_pos hk] at h
      injection h with h
      subst hk; subst h
      exact List.mem_cons_self _ _
    · rw [if_neg hk] at h
      exact List.mem_cons_of_mem _ (ih h)

theorem mapFind_isSome_of_mem {β : Type} {k : Str} {l : List (Str × β)} {v : β}
    (h : (k, v) ∈ l) : (mapFind k l).isSome = true := by
  induction l with
  | nil => simp at h
  | cons p rest ih =>
    obtain ⟨k2, v2⟩ := p
    rw [mapFind_cons]
    by_cases hk : k = k2
    · simp [hk]
    · rw [if_neg hk]
      rcases List.mem_cons.mp h with heq | hmem
      · exact absurd (congrArg Prod.fst heq) hk
      · exact ih hmem

theorem mapFind_eq_none_of_not_mem_keys {β : Type} {k : Str} {l : List (Str × β)}
    (h : k ∉ l.map Prod.fst) : mapFind k l = none := by
  induction l with
  | nil => rfl
  | cons p rest ih =>
    obtain ⟨k2, v2⟩ := p
    simp only [List.map_cons, List.mem_cons, not_or] at h
    rw [mapFind_cons, if_neg h.1]
    exact ih h.2

/-- The base id of any id is hyphen-free: takeWhile keeps only characters
distinct from the hyphen. -/
theorem baseId_hasHyphen (k : Str) : hasHyphen (baseId k) = false := by
  rw [hasHyphen, decide_eq_false_iff_not]
  intro hmem
  have := List.mem_takeWhile_imp (l := k) (p := fun c => c != '-') hmem
  simp at this

/-- A hyphen-free id equals its own base id. -/
theorem baseId_of_no_hyphen {k : Str} (h : hasHyphen k = false) : baseId k = k := by
  rw [hasHyphen, decide_eq_false_iff_not] at h
  rw [baseId, List.takeWhile_eq_self_iff]
  intro c hc
  simp only [bne_iff_ne, ne_eq]
  intro heq
  exact h (heq ▸ hc)

/- Characterization of the clean rule. -/

theorem cleanGo_find (b : Str) :
    ∀ (entries acc : Corpus), (entries.map Prod.fst).Nodup →
      mapFind b (cleanGo entries acc) =
        if hasHyphen b = false ∧ (mapFind b entries).isSome = true
        then mapFind b entries else mapFind b acc := by
  intro entries
  induction entries with
  | nil => intro acc _; simp [cleanGo, mapFind]
  | cons p rest ih =>
    intro acc hnd
    obtain ⟨k, v⟩ := p
    simp only [List.map_cons, List.nodup_cons] at hnd
    rcases hh : hasHyphen k with _ | _
    · -- hyphen-free head: inserted
      rw [cleanGo, if_pos (by rw [hh]), ih _ hnd.2]
      by_cases hkb : b = k
      · subst hkb
        rw [mapFind_eq_none_of_not_mem_keys hnd.1]
        simp [mapFind_cons, hh]
      · simp [mapFind_cons, hkb]
    · -- hyphenated head: dropped
      rw [cleanGo, if_neg (by simp [hh]), ih _ hnd.2]
      by_cases hkb : b = k
      · subst hkb
        simp [mapFind_cons, hh]
      · simp [mapFind_cons, hkb]

/- Characterization of the challenge rule. -/

theorem challengeGo_find (b : Str) :
    ∀ (entries acc : Corpus), (entries.map Prod.fst).Nodup →
      mapFind b (challengeGo entries acc) =
        if hasHyphen b = true ∧ (mapFind b entries).isSome = true
        then mapFind b entries else mapFind b acc := by
  intro entries
  induction entries with
  | nil => intro acc _; simp [challengeGo, mapFind]
  | cons p rest ih =>
    intro acc hnd
    obtain ⟨k, v⟩ := p
    simp only [List.map_cons, List.nodup_cons] at hnd
    rcases hh : hasHyphen k with _ | _
    · -- hyphen-free head: dropped
      rw [challengeGo, if_pos (by rw [hh]), ih _ hnd.2]
      by_cases hkb : b = k
      · subst hkb
        simp [mapFind_cons, hh]
      · simp [mapFind_cons, hkb]
    · -- hyphenated head: inserted
      rw [challengeGo, if_neg (by simp [hh]), ih _ hnd.2]
      by_cases hkb : b = k
      · subst hkb
        rw [mapFind_eq_none_of_not_mem_keys hnd.1]
        simp [mapFind_cons, hh]
      · simp [mapFind_cons, hkb]

/- Untouched-key lemmas: entries none of which can insert under b leave
the accumulated value at b alone. -/

theorem appendGo_untouched (raw : Corpus) (rng : Nat → Nat) (b : Str) :
    ∀ (entries : Corpus) (i : Nat) (acc : Corpus),
      (∀ p ∈ entries, touchesKey raw p.1 b = false) →
      mapFind b (appendGo raw rng entries i acc) = mapFind b acc := by
  intro entries
  induction entries with
  | nil => intro i acc _; rfl
  | cons p rest ih =>
    intro i acc h
    obtain ⟨k, v⟩ := p
    have hk := h (k, v) (List.mem_cons_self _ _)
    have hrest : ∀ q ∈ rest, touchesKey raw q.1 b = false :=
      fun q hq => h q (List.mem_cons_of_mem _ hq)
    rcases hh : hasHyphen k with _ | _
    · rcases halt : mapFind (k ++ highConf) raw with _ | w
      · have hkb : b ≠ k := by
          rw [touchesKey, if_pos (by rw [hh]), halt] at hk
          simp at hk
          exact fun heq => hk heq.symm
        simp [appendGo, hh, halt]
        rw [ih _ _ hrest, mapFind_cons, if_neg hkb]
      · simp [appendGo, hh, halt]
        exact ih _ _ hrest
    · rcases hbase : mapFind (baseId k) raw with _ | v2
      · simp [appendGo, hh, hbase]
        exact ih _ _ hrest
      · have hkb : b ≠ baseId k := by
          rw [touchesKey, if_neg (by simp [hh]), hbase] at hk
          simp at hk
          exact fun heq => hk heq.symm
        by_cases hs : rng i < 26009 <;>
          simp [appendGo, hh, hbase, hs] <;>
          rw [ih _ _ hrest, mapFind_cons, if_neg hkb]

theorem twowayGo_untouched (raw : Corpus) (rng : Nat → Nat) (b : Str) :
    ∀ (entries : Corpus) (i : Nat) (acc m : Corpus),
      (∀ p ∈ entries, touchesKey raw p.1 b = false) →
      twowayGo raw rng entries i acc = some m →
      mapFind b m = mapFind b acc := by
  intro entries
  induction entries with
  | nil =>
    intro i acc m _ hm
    rw [twowayGo] at hm
    injection hm with hm
    rw [hm]
  | cons p rest ih =>
    intro i acc m h hm
    obtain ⟨k, v⟩ := p
    have hk := h (k, v) (List.mem_cons_self _ _)
    have hrest : ∀ q ∈ rest, touchesKey raw q.1 b = false :=
      fun q hq => h q (List.mem_cons_of_mem _ hq)
    rcases hh : hasHyphen k with _ | _
    · rcases halt : mapFind (k ++ highConf) raw with _ | w
      · have hkb : b ≠ k := by
          rw [touchesKey, if_pos (by rw [hh]), halt] at hk
          simp at hk
          exact fun heq => hk heq.symm
        simp only [twowayGo, hh, halt] at hm
        simp at hm
        rw [ih _ _ _ hrest hm, mapFind_cons, if_neg hkb]
      · simp only [twowayGo, hh, halt] at hm
        simp at hm
        exact ih _ _ _ hrest hm
    · rcases hbase : mapFind (baseId k) raw with _ | v2
      · simp only [twowayGo, hh, hbase] at hm
        simp [hh] at hm
        exact ih _ _ _ hrest hm
      · have hkb : b ≠ baseId k := by
          rw [touchesKey, if_neg (by simp [hh]), hbase] at hk
          simp at hk
          exact fun heq => hk heq.symm
        by_cases h1 : rng i < 11339
        · simp only [twowayGo, hh, hbase] at hm
          simp [hh, h1] at hm
          rw [ih _ _ _ hrest hm, mapFind_cons, if_neg hkb]
        · by_cases h2 : rng i < 40469
          · simp only [twowayGo, hh, hbase] at hm
            simp [hh, h1, h2] at hm
            rw [ih _ _ _ hrest hm, mapFind_cons, if_neg hkb]
          · rcases hpe : prependExample v2 v with _ | e
            · simp only [twowayGo, hh, hbase] at hm
              simp [hh, h1, h2, hpe] at hm
            · simp only [twowayGo, hh, hbase] at hm
              simp [hh, h1, h2, hpe] at hm
              rw [ih _ _ _ hrest hm, mapFind_cons, if_neg hkb]

/-- Every binding of the append output comes from the corpus: the key is
hyphen-free and present in the corpus, and the value is some corpus
example, never a synthesized one. -/
theorem appendGo_sound (raw : Corpus) (rng : Nat → Nat) :
    ∀ (entries : Corpus) (i : Nat) (acc : Corpus) (b : Str) (val : Example),
      (∀ p ∈ entries, p ∈ raw) →
      mapFind b (appendGo raw rng entries i acc) = some val →
      mapFind b acc = some val ∨
        (hasHyphen b = false ∧ (mapFind b raw).isSome = true ∧
          ∃ k2, (k2, val) ∈ raw) := by
  intro entries
  induction entries with
  | nil =>
    intro i acc b val _ hfind
    exact Or.inl hfind
  | cons p rest ih =>
    intro i acc b val hmem hfind
    obtain ⟨k, v⟩ := p
    have hkraw : (k, v) ∈ raw := hmem (k, v) (List.mem_cons_self _ _)
    have hrest : ∀ q ∈ rest, q ∈ raw := fun q hq => hmem q (List.mem_cons_of_mem _ hq)
    rcases hh : hasHyphen k with _ | _
    · rcases halt : mapFind (k ++ highConf) raw with _ | w
      · simp only [appendGo, hh] at hfind
        simp [halt] at hfind
        rcases ih _ _ _ _ hrest hfind with hacc | hgood
        · rw [mapFind_cons] at hacc
          by_cases hkb : b = k
          · subst hkb
            rw [if_pos rfl] at hacc
            injection hacc with hacc
            exact Or.inr ⟨hh, mapFind_isSome_of_mem hkraw, ⟨b, hacc ▸ hkraw⟩⟩
          · rw [if_neg hkb] at hacc
            exact Or.inl hacc
        · exact Or.inr hgood
      · simp only [appendGo, hh] at hfind
        simp [halt] at hfind
        exact ih _ _ _ _ hrest hfind
    · rcases hbase : mapFind (baseId k) raw with _ | v2
      · simp only [appendGo, hh] at hfind
        simp [hh, hbase] at hfind
        exact ih _ _ _ _ hrest hfind
      · have hb2 : (baseId k, v2) ∈ raw := mapFind_some_mem hbase
        by_cases hs : rng i < 26009
        · simp only [appendGo, hh] at hfind
          simp [hh, hbase, hs] at hfind
          rcases ih _ _ _ _ hrest hfind with hacc | hgood
          · rw [mapFind_cons] at hacc
            by_cases hkb : b = baseId k
            · subst hkb
              rw [if_pos rfl] at hacc
              injection hacc with hacc
              exact Or.inr ⟨baseId_hasHyphen k,
                mapFind_isSome_of_mem hb2, ⟨baseId k, hacc ▸ hb2⟩⟩
            · rw [if_neg hkb] at hacc
              exact Or.inl hacc
          · exact Or.inr hgood
        · simp only [appendGo, hh] at hfind
          simp [hh, hbase, hs] at hfind
          rcases ih _ _ _ _ hrest hfind with hacc | hgood
          · rw [mapFind_cons] at hacc
            by_cases hkb : b = baseId k
            · subst hkb
              rw [if_pos rfl] at hacc
              injection hacc with hacc
              exact Or.inr ⟨baseId_hasHyphen k,
                mapFind_isSome_of_mem hb2, ⟨k, hacc ▸ hkraw⟩⟩
            · rw [if_neg hkb] at hacc
              exact Or.inl hacc
          · exact Or.inr hgood

/-- A base id with no high-conf variant and no variant of any suffix in the
iterated entries keeps its corpus value in the append output. -/
theorem appendGo_cleanOnly (raw : Corpus) (rng : Nat → Nat) (b : Str) (vb : Example)
    (hb : hasHyphen b = false) (halt : mapFind (b ++ highConf) raw = none) :
    ∀ (entries : Corpus) (i : Nat) (acc : Corpus),
      (b, vb) ∈ entries →
      (entries.map Prod.fst).Nodup →
      (∀ p ∈ entries, hasHyphen p.1 = true → baseId p.1 ≠ b) →
      mapFind b (appendGo raw rng entries i acc) = some vb := by
  intro entries
  induction entries with
  | nil => intro i acc hmem; simp at hmem
  | cons p rest ih =>
    intro i acc hmem hnd hvar
    obtain ⟨k, v⟩ := p
    simp only [List.map_cons, List.nodup_cons] at hnd
    have hvarrest : ∀ p ∈ rest, hasHyphen p.1 = true → baseId p.1 ≠ b :=
      fun p hp => hvar p (List.mem_cons_of_mem _ hp)
    by_cases hkb : k = b
    · subst hkb
      have hvvb : v = vb := by
        rcases List.mem_cons.mp hmem with heq | hmemrest
        · exact (congrArg Prod.snd heq).symm
        · exact absurd (List.mem_map_of_mem Prod.fst hmemrest) hnd.1
      subst hvvb
      have huntouched : ∀ q ∈ rest, touchesKey raw q.1 k = false := by
        intro q hq
        rw [touchesKey]
        rcases hhq : hasHyphen q.1 with _ | _
        · rw [if_pos rfl]
          have : q.1 ≠ k := by
            intro heq
            exact hnd.1 (heq ▸ List.mem_map_of_mem Prod.fst hq)
          simp [this]
        · rw [if_neg (by simp)]
          simp [hvarrest q hq hhq]
      simp [appendGo, hb, halt]
      rw [appendGo_untouched raw rng k rest _ _ huntouched, mapFind_cons, if_pos rfl]
    · have hmemrest : (b, vb) ∈ rest := by
        rcases List.mem_cons.mp hmem with heq | h
        · exact absurd (congrArg Prod.fst heq).symm hkb
        · exact h
      rcases hh : hasHyphen k with _ | _
      · rcases halt2 : mapFind (k ++ highConf) raw with _ | w <;>
          simp [appendGo, hh, halt2] <;>
          exact ih _ _ hmemrest hnd.2 hvarrest
      · rcases hbase : mapFind (baseId k) raw with _ | v2
        · simp [appendGo, hh, hbase]
          exact ih _ _ hmemrest hnd.2 hvarrest
        · by_cases hs : rng i < 26009 <;>
            simp [appendGo, hh, hbase, hs] <;>
            exact ih _ _ hmemrest hnd.2 hvarrest

/-- Unfolding of the wellFormed corpus invariant at one hyphenated entry. -/
theorem wellFormed_take (raw : Corpus) (hwf : wellFormed raw = true)
    {k : Str} {v v2 : Example} (hmem : (k, v) ∈ raw) (hh : hasHyphen k = true)
    (hbase : mapFind (baseId k) raw = some v2) :
    v.context.take v2.context.length = v2.context := by
  rw [wellFormed, List.all_eq_true] at hwf
  have := hwf (k, v) hmem
  rw [hh] at this
  simp only [Bool.not_true, Bool.false_or] at this
  rw [hbase] at this
  exact of_decide_eq_true this

/-- The take form of the invariant bounds the clean context length by the
variant context length, which is exactly the slice-safety condition of the
prepend branch. -/
theorem wellFormed_le (raw : Corpus) (hwf : wellFormed raw = true)
    {k : Str} {v v2 : Example} (hmem : (k, v) ∈ raw) (hh : hasHyphen k = true)
    (hbase : mapFind (baseId k) raw = some v2) :
    v2.context.length ≤ v.context.length := by
  have h := wellFormed_take raw hwf hmem hh hbase
  have hlen := congrArg List.length h
  rw [List.length_take] at hlen
  omega


/-- On a well-formed corpus the twoway loop never reaches the panic case:
the prepend slice is always in range. -/
theorem twowayGo_total (raw : Corpus) (rng : Nat → Nat)
    (hwf : wellFormed raw = true) :
    ∀ (entries : Corpus), (∀ p ∈ entries, p ∈ raw) →
      ∀ (i : Nat) (acc : Corpus), ∃ m, twowayGo raw rng entries i acc = some m := by
  intro entries
  induction entries with
  | nil => intro _ i acc; exact ⟨acc, rfl⟩
  | cons p rest ih =>
    intro hmem i acc
    obtain ⟨k, v⟩ := p
    have hkraw : (k, v) ∈ raw := hmem (k, v) (List.mem_cons_self _ _)
    have hrest : ∀ q ∈ rest, q ∈ raw := fun q hq => hmem q (List.mem_cons_of_mem _ hq)
    rcases hh : hasHyphen k with _ | _
    · rcases halt : mapFind (k ++ highConf) raw with _ | w
      · obtain ⟨m, hm⟩ := ih hrest i ((k, v) :: acc)
        exact ⟨m, by simp [twowayGo, hh, halt, hm]⟩
      · obtain ⟨m, hm⟩ := ih hrest i acc
        exact ⟨m, by simp [twowayGo, hh, halt, hm]⟩
    · rcases hbase : mapFind (baseId k) raw with _ | v2
      · obtain ⟨m, hm⟩ := ih hrest i acc
        exact ⟨m, by simp [twowayGo, hh, hbase, hm]⟩
      · by_cases h1 : rng i < 11339
        · obtain ⟨m, hm⟩ := ih hrest (i + 1) ((baseId k, v2) :: acc)
          exact ⟨m, by simp [twowayGo, hh, hbase, h1, hm]⟩
        · by_cases h2 : rng i < 40469
          · obtain ⟨m, hm⟩ := ih hrest (i + 1) ((baseId k, v) :: acc)
            exact ⟨m, by simp [twowayGo, hh, hbase, h1, h2, hm]⟩
          · have hlen : v2.context.length ≤ v.context.length :=
              wellFormed_le raw hwf hkraw hh hbase
            rcases hpe : prependExample v2 v with _ | e
            · rw [prependExample, if_pos hlen] at hpe
              exact absurd hpe (by simp)
            · obtain ⟨m, hm⟩ := ih hrest (i + 1) ((baseId k, e) :: acc)
              exact ⟨m, by simp [twowayGo, hh, hbase, h1, h2, hpe, hm]⟩

/-- Dropping past a pasted-on front segment reaches the original list. -/
theorem drop_append_front {α : Type} :
    ∀ (front l : List α) (n : Nat), (front ++ l).drop (front.length + n) = l.drop n
  | [], l, n => by simp
  | c :: cs, l, n => by
    have harith : (c :: cs).length + n = (cs.length + n) + 1 := by
      simp [List.length_cons]
      omega
    rw [List.cons_append, harith, List.drop_succ_cons, drop_append_front cs l n]

/-- The properties of the Example built by the prepend transformation:
context is the extracted sentence pasted before the clean context, answer
texts are unchanged, offsets are shifted by the pasted length, title and
question come from the clean example, and the answers invariant is
preserved. -/
theorem prependExample_spec (v2 v : Example)
    (hlen : v2.context.length ≤ v.context.length) :
    ∃ e, prependExample v2 v = some e ∧
      e.context = lastSentence v2 v ++ v2.context ∧
      e.answers.text = v2.answers.text ∧
      e.answers.answer_start = v2.answers.answer_start.map
        (fun s => s + ((lastSentence v2 v).length : Int)) ∧
      e.title = v2.title ∧
      e.question = v2.question ∧
      (answersOk v2 → answersOk e) := by
  rw [prependExample, if_pos hlen]
  refine ⟨_, rfl, rfl, rfl, rfl, rfl, rfl, ?_⟩
  rintro ⟨hpar, hok⟩
  constructor
  · simpa using hpar
  · intro i ht hs
    simp only [List.get_eq_getElem, List.getElem_map] at *
    have hs2 : i < v2.answers.answer_start.length := by simpa using hs
    have ht2 : i < v2.answers.text.length := by simpa using ht
    obtain ⟨hnn, hsub⟩ := hok i ht2 hs2
    constructor
    · omega
    · rw [Int.toNat_add hnn (by positivity), Int.toNat_natCast,
        Nat.add_comm, drop_append_front]
      exact hsub

/-- Unflattening the Writer parallel arrays reconstructs the split
entry for entry. -/
theorem unflatten_flatten : ∀ m : Corpus, unflattenOutput (flattenExamples m) = m := by
  intro m
  induction m with
  | nil => rfl
  | cons p rest ih =>
    obtain ⟨k, v⟩ := p
    simp only [flattenExamples, unflattenOutput, unflattenLists] at *
    rw [ih]

/-- C5: for every corpus with distinct ids, the Clean rule output contains
exactly the hyphen-free corpus ids, each mapped to its corpus Example
unchanged, and no hyphenated id. -/
theorem clean_rule_correct (raw : Corpus)
    (hnd : (raw.map Prod.fst).Nodup) (b : Str) :
    mapFind b (get_clean_examples raw) =
      if hasHyphen b = true then none else mapFind b raw := by
  rw [get_clean_examples, cleanGo_find b raw [] hnd]
  rcases hh : hasHyphen b with _ | _
  · rcases hfind : mapFind b raw with _ | v
    · simp [hfind, mapFind]
    · simp [hfind]
  · simp [mapFind]

theorem clean_rule_correct_witness :
    mapFind q1Str (get_clean_examples parisCorpus) =
      if hasHyphen q1Str = true then none else mapFind q1Str parisCorpus :=
  clean_rule_correct parisCorpus (by decide) q1Str

/-- C6: for every corpus with distinct ids, the Challenge rule output
contains exactly the hyphenated corpus ids, keyed by their full original
id and mapped unchanged, and no hyphen-free id. -/
theorem challenge_rule_correct (raw : Corpus)
    (hnd : (raw.map Prod.fst).Nodup) (b : Str) :
    mapFind b (get_challenge_examples raw) =
      if hasHyphen b = true then mapFind b raw else none := by
  rw [get_challenge_examples, challengeGo_find b raw [] hnd]
  rcases hh : hasHyphen b with _ | _
  · simp [mapFind]
  · rcases hfind : mapFind b raw with _ | v
    · simp [hfind, mapFind]
    · simp [hfind]

theorem challenge_rule_correct_witness :
    mapFind q1hcStr (get_challenge_examples parisCorpus) =
      if hasHyphen q1hcStr = true then mapFind q1hcStr parisCorpus else none :=
  challenge_rule_correct parisCorpus (by decide) q1hcStr

/-- C7: a hyphenated id whose base id is absent from the corpus is
silently skipped by both the Append and the Twoway rule: processing it
changes nothing, no entry is emitted and no failure is raised. -/
theorem orphan_variant_skipped (raw : Corpus) (rng : Nat → Nat)
    (k : Str) (v : Example) (rest : Corpus) (i : Nat) (acc : Corpus)
    (hk : hasHyphen k = true) (hb : mapFind (baseId k) raw = none) :
    appendGo raw rng ((k, v) :: rest) i acc = appendGo raw rng rest i acc ∧
    twowayGo raw rng ((k, v) :: rest) i acc = twowayGo raw rng rest i acc := by
  constructor <;> simp [appendGo, twowayGo, hk, hb]

theorem orphan_variant_skipped_witness :
    appendGo parisCorpus rng5k [(q2fooStr, parisClean)] 0 []
        = appendGo parisCorpus rng5k [] 0 [] ∧
    twowayGo parisCorpus rng5k [(q2fooStr, parisClean)] 0 []
        = twowayGo parisCorpus rng5k [] 0 [] :=
  orphan_variant_skipped parisCorpus rng5k q2fooStr parisClean [] 0 []
    (by decide) (by decide)

/-- C8: on a corpus satisfying the corpus invariant, the Twoway rule
cannot fail: the prepend slice of the variant context at the clean context
length is always in range, so no panic is reached.  The Clean, Append and
Challenge rules are total by construction in this embedding, matching the
absence of any failing operation in their source. -/
theorem twoway_never_panics (raw : Corpus) (rng : Nat → Nat)
    (hwf : wellFormed raw = true) :
    ∃ m, get_twoway_examples raw rng = some m :=
  twowayGo_total raw rng hwf raw (fun _ h => h) 0 []

theorem twoway_never_panics_witness :
    ∃ m, get_twoway_examples parisCorpus rng50k = some m :=
  twoway_never_panics parisCorpus rng50k (by decide)

/-- C2: for a variant entry whose base id is present and which is the last
entry able to write under that base id, a drawn sample s in the range
below 69808 selects the clean base example when s is below 11339, the
variant as-is when s is at least 11339 and below 40469, and the prepend
transformation when s is at least 40469; the three half-open buckets have
widths 11339, 29130 and 29339. -/
theorem twoway_bucket_thresholds (raw : Corpus) (rng : Nat → Nat)
    (k : Str) (v v2 : Example) (rest : Corpus) (i : Nat) (acc m : Corpus)
    (hk : hasHyphen k = true) (hv2 : mapFind (baseId k) raw = some v2)
    (hrest : ∀ p ∈ rest, touchesKey raw p.1 (baseId k) = false)
    (hm : twowayGo raw rng ((k, v) :: rest) i acc = some m)
    (hs : rng i < 69808) :
    (rng i < 11339 → mapFind (baseId k) m = some v2) ∧
    (11339 ≤ rng i → rng i < 40469 → mapFind (baseId k) m = some v) ∧
    (40469 ≤ rng i →
      ∃ e, prependExample v2 v = some e ∧ mapFind (baseId k) m = some e) ∧
    11339 + 29130 = 40469 ∧ 40469 + 29339 = 69808 := by
  refine ⟨?_, ?_, ?_, by omega, by omega⟩
  · intro h1
    simp [twowayGo, hk, hv2, h1] at hm
    rw [twowayGo_untouched raw rng (baseId k) rest (i + 1) _ m hrest hm,
      mapFind_cons, if_pos rfl]
  · intro h1 h2
    have h1n : ¬ rng i < 11339 := by omega
    simp [twowayGo, hk, hv2, h1n, h2] at hm
    rw [twowayGo_untouched raw rng (baseId k) rest (i + 1) _ m hrest hm,
      mapFind_cons, if_pos rfl]
  · intro h3
    have h1n : ¬ rng i < 11339 := by omega
    have h2n : ¬ rng i < 40469 := by omega
    rcases hpe : prependExample v2 v with _ | e
    · simp [twowayGo, hk, hv2, h1n, h2n, hpe] at hm
    · simp [twowayGo, hk, hv2, h1n, h2n, hpe] at hm
      refine ⟨e, rfl, ?_⟩
      rw [twowayGo_untouched raw rng (baseId k) rest (i + 1) _ m hrest hm,
        mapFind_cons, if_pos rfl]

theorem twoway_bucket_thresholds_witness :
    (rng50k 0 < 11339 →
      mapFind (baseId q1hcStr) [(q1Str, parisPrepended)] = some parisClean) ∧
    (11339 ≤ rng50k 0 → rng50k 0 < 40469 →
      mapFind (baseId q1hcStr) [(q1Str, parisPrepended)] = some parisVariant) ∧
    (40469 ≤ rng50k 0 →
      ∃ e, prependExample parisClean parisVariant = some e ∧
        mapFind (baseId q1hcStr) [(q1Str, parisPrepended)] = some e) ∧
    11339 + 29130 = 40469 ∧ 40469 + 29339 = 69808 :=
  twoway_bucket_thresholds parisCorpus rng50k q1hcStr parisVariant parisClean
    [] 0 [] [(q1Str, parisPrepended)] (by decide) (by decide) (by simp)
    (by decide) (by decide)

/-- C1: in the third twoway bucket, with v the variant and v2 the base
example and the variant context extending the base context, the emitted
Example has context equal to the trimmed adversarial sentence with one
trailing space pasted before the base context, answer texts unchanged,
every answer offset shifted forward by the pasted length, title and
question from the base; and the answers invariant of the base carries over
to the emitted Example. -/
theorem twoway_prepend_correct (raw : Corpus) (rng : Nat → Nat)
    (k : Str) (v v2 : Example) (rest : Corpus) (i : Nat) (acc : Corpus)
    (t : Str)
    (hk : hasHyphen k = true) (hv2 : mapFind (baseId k) raw = some v2)
    (hs : 40469 ≤ rng i) (hext : v.context = v2.context ++ t) :
    ∃ e, prependExample v2 v = some e ∧
      twowayGo raw rng ((k, v) :: rest) i acc
        = twowayGo raw rng rest (i + 1) ((baseId k, e) :: acc) ∧
      e.context = lastSentence v2 v ++ v2.context ∧
      e.answers.text = v2.answers.text ∧
      e.answers.answer_start = v2.answers.answer_start.map
        (fun s => s + ((lastSentence v2 v).length : Int)) ∧
      e.title = v2.title ∧
      e.question = v2.question ∧
      (answersOk v2 → answersOk e) := by
  have hlen : v2.context.length ≤ v.context.length := by
    rw [hext]
    simp
  obtain ⟨e, hpe, hprops⟩ := prependExample_spec v2 v hlen
  refine ⟨e, hpe, ?_, hprops⟩
  have h1n : ¬ rng i < 11339 := by omega
  have h2n : ¬ rng i < 40469 := by omega
  simp [twowayGo, hk, hv2, h1n, h2n, hpe]

theorem twoway_prepend_correct_witness :
    ∃ e, prependExample parisClean parisVariant = some e ∧
      twowayGo parisCorpus rng50k [(q1hcStr, parisVariant)] 0 []
        = twowayGo parisCorpus rng50k [] 1 [(baseId q1hcStr, e)] ∧
      e.context = lastSentence parisClean parisVariant ++ parisClean.context ∧
      e.answers.text = parisClean.answers.text ∧
      e.answers.answer_start = parisClean.answers.answer_start.map
        (fun s => s + ((lastSentence parisClean parisVariant).length : Int)) ∧
      e.title = parisClean.title ∧
      e.question = parisClean.question ∧
      (answersOk parisClean → answersOk e) :=
  twoway_prepend_correct parisCorpus rng50k q1hcStr parisVariant parisClean
    [] 0 [] romeTail (by decide) (by decide) (by decide) (by decide)

/-- C3 counterexample: in a corpus whose base id Q1 has no high-conf
variant but does have a variant with another suffix, the Append output
under Q1 is the variant example, not the unchanged corpus example for Q1,
refuting the claim that every base id lacking a high-conf variant maps to
its corpus example unchanged. -/
theorem append_rule_counterexample :
    hasHyphen q1Str = false ∧
    mapFind (q1Str ++ highConf) fooCorpusAB = none ∧
    mapFind q1Str fooCorpusAB = some parisClean ∧
    mapFind q1Str (get_append_examples fooCorpusAB rng30k) = some parisVariant ∧
    parisVariant ≠ parisClean := by
  refine ⟨by decide, by decide, by decide, by decide, by decide⟩

/-- C3 amended: a base id with no high-conf variant and no variant of any
suffix keeps its corpus example unchanged in the Append output; a variant
entry whose base id is present and after which no entry can write under
that base id yields under the base id exactly the clean example when the
sample is below 26009 and exactly the variant example otherwise; and every
Append output binding has a hyphen-free key that is a corpus key and a
value that is structurally equal to some corpus example, never a blend. -/
theorem append_rule_correct (raw : Corpus) (rng : Nat → Nat) :
    (∀ b vb, hasHyphen b = false → (b, vb) ∈ raw →
      (raw.map Prod.fst).Nodup →
      mapFind (b ++ highConf) raw = none →
      (∀ p ∈ raw, hasHyphen p.1 = true → baseId p.1 ≠ b) →
      mapFind b (get_append_examples raw rng) = some vb) ∧
    (∀ k v v2 rest i acc, hasHyphen k = true →
      mapFind (baseId k) raw = some v2 →
      (∀ p ∈ rest, touchesKey raw p.1 (baseId k) = false) →
      mapFind (baseId k) (appendGo raw rng ((k, v) :: rest) i acc)
        = some (if rng i < 26009 then v2 else v)) ∧
    (∀ b val, mapFind b (get_append_examples raw rng) = some val →
      hasHyphen b = false ∧ (mapFind b raw).isSome = true ∧
        ∃ k2, (k2, val) ∈ raw) := by
  refine ⟨?_, ?_, ?_⟩
  · intro b vb hb hmem hnd halt hvar
    exact appendGo_cleanOnly raw rng b vb hb halt raw 0 [] hmem hnd hvar
  · intro k v v2 rest i acc hk hv2 hrest
    by_cases hsamp : rng i < 26009 <;>
      simp [appendGo, hk, hv2, hsamp] <;>
      rw [appendGo_untouched raw rng (baseId k) rest _ _ hrest,
        mapFind_cons, if_pos rfl]
  · intro b val hfind
    rcases appendGo_sound raw rng raw 0 [] b val (fun _ h => h) hfind with hacc | hgood
    · simp [mapFind] at hacc
    · exact hgood

theorem append_rule_correct_witness :
    mapFind q2Str (get_append_examples soloCorpus rng30k) = some parisClean ∧
    mapFind (baseId q1hcStr)
        (appendGo parisCorpus rng30k [(q1hcStr, parisVariant)] 0 [])
      = some (if rng30k 0 < 26009 then parisClean else parisVariant) ∧
    (hasHyphen q1Str = false ∧ (mapFind q1Str parisCorpus).isSome = true ∧
      ∃ k2, (k2, parisVariant) ∈ parisCorpus) :=
  ⟨(append_rule_correct soloCorpus rng30k).1 q2Str parisClean
      (by decide) (by decide) (by decide) (by decide) (by decide),
   (append_rule_correct parisCorpus rng30k).2.1 q1hcStr parisVariant parisClean
      [] 0 [] (by decide) (by decide) (by simp),
   (append_rule_correct parisCorpus rng30k).2.2 q1Str parisVariant (by decide)⟩

/-- C4 counterexample: on the section 8 corpus with the sample forced into
the third bucket, the Twoway prepend branch emits under Q1 the expected
context but answer offset 24, not 25: the pasted text has 24 characters. -/
theorem twoway_paris_counterexample :
    (get_twoway_examples parisCorpus rng50k).bind (mapFind q1Str)
        = some parisPrepended ∧
    parisPrepended.context = romeParisCtx ∧
    parisPrepended.answers.answer_start ≠ [25] := by
  refine ⟨by decide, by decide, by decide⟩

/-- C4 amended: on the section 8 corpus with the sample forced into the
third bucket, the Twoway prepend branch yields under Q1 the context with
the adversarial sentence moved to the front and answer offset 24, the
length of the pasted text. -/
theorem twoway_paris_example :
    (get_twoway_examples parisCorpus rng50k).bind (mapFind q1Str)
        = some parisPrepended ∧
    parisPrepended.context = romeParisCtx ∧
    parisPrepended.answers.answer_start = [24] ∧
    lastSentence parisClean parisVariant = "Rome is also a capital. ".data ∧
    ("Rome is also a capital. ".data).length = 24 := by
  refine ⟨by decide, by decide, by decide, by decide, by decide⟩

/-- C9 counterexample: the Loader cannot read the output of the Writer at
all, because the Writer stores under the data key an object of parallel
arrays while the Loader requires an array of passage groups; loading the
written single-entry split fails. -/
theorem writer_loader_counterexample :
    read_raw_examples (write_training_examples soloCorpus) = none := by
  decide

/-- C9 amended: for every derived split, loading the file written by the
Writer fails, so no round trip through the Loader exists; the split
nonetheless remains fully recoverable from the written schema, since
unflattening the five parallel arrays of the Writer output reconstructs
the original id to Example mapping exactly. -/
theorem writer_roundtrip_amended (m : Corpus) :
    read_raw_examples (write_training_examples m) = none ∧
    unflattenOutput (flattenExamples m) = m :=
  ⟨rfl, unflatten_flatten m⟩

/-- C10: the random branch of the Append and Twoway rules keys on any
hyphenated id with a present base, regardless of suffix: a variant with a
suffix other than high-conf is sampled, and its insertion under the base
id competes with the clean-only emission of the base, so the surviving
value under the base id depends on the iteration order of the corpus
mapping and can be the variant example. -/
theorem suffix_blind_selection :
    mapFind q1Str (get_append_examples fooCorpusAB rng30k) = some parisVariant ∧
    mapFind q1Str (get_append_examples fooCorpusBA rng30k) = some parisClean ∧
    (get_twoway_examples fooCorpusAB rng30k).bind (mapFind q1Str)
        = some parisVariant ∧
    (get_twoway_examples fooCorpusBA rng30k).bind (mapFind q1Str)
        = some parisClean ∧
    parisVariant ≠ parisClean := by
  refine ⟨by decide, by decide, by decide, by decide, by decide⟩
